import Mathlib

/-!
Verification of the runtime value model and argument-binding layer of the
typst document-markup compiler: the tagged `Value` type, the dual-keyed
argument `Table` with its extraction protocol (`take`, `expect`,
`take_all_num`), the typed-conversion protocol (`TryFromValue` instances,
in particular the clamping `FontWeight` conversion), the formatting `State`
with the snapshot/restore discipline of the markup library functions, and
the `FamilyMap` font-family resolution.

Numbers (`f64` in the source) are modelled as rationals; machine pointers
(`Rc`) are modelled as indices into an explicit store with strong counts.
-/

namespace Typst

/-- Modelled from the spec: a `Span` is an opaque source-location range from
the syntax module (not in src/); a natural number identifier suffices. -/
abbrev Span := Nat

/-- The zero span, `Span::ZERO`. -/
def Span.zero : Span := 0

/-- Modelled from the spec: `Spanned` pairs a value with its source span
(syntax module not in src/). -/
structure Spanned (α : Type) where
  v : α
  span : Span
deriving DecidableEq

/-- A single diagnostic record: a span together with an error message. -/
structure Diag where
  span : Span
  message : String
deriving DecidableEq

/-- Modelled from the spec: `Feedback` (diagnostics sink) is an append-only
ordered list of diagnostics. -/
abbrev Feedback := List Diag

/-- `Feedback::new()`: the empty sink. -/
def Feedback.new : Feedback := []

/-! ## Font family definitions (src/exec/state.rs) -/

/-- A generic or named font family (`FontFamily`). -/
inductive FontFamily where
  | serif
  | sansSerif
  | monospace
  | named (s : String)
deriving DecidableEq

/-- Font family definitions (`FamilyMap`). -/
structure FamilyMap where
  /-- The user-defined list of font families. -/
  list : List FontFamily
  /-- Definition of serif font families. -/
  serif : List String
  /-- Definition of sans-serif font families. -/
  sans_serif : List String
  /-- Definition of monospace font families used for raw text. -/
  monospace : List String
  /-- Base fonts that are tried if the list has no match. -/
  base : List String
deriving DecidableEq

/-- `FamilyMap::iter`: flat iterator over the map's family names, as the
list of names it yields in order. -/
def FamilyMap.iter (m : FamilyMap) : List String :=
  (m.list.flatMap fun family =>
    match family with
    | FontFamily.named name => [name]
    | FontFamily.serif => m.serif
    | FontFamily.sansSerif => m.sans_serif
    | FontFamily.monospace => m.monospace)
  ++ m.base

/-! ## Formatting state (src/exec/state.rs)

`f64` quantities are modelled as rationals. The `Rc<FamilyMap>` inside
`FontState` is modelled as an index into an explicit `RcStore` whose cells
carry the referent together with its strong count. -/

/-- Modelled from the spec: a layout direction (`Dir`, from the layout
module, not in src/): `ltr | rtl | ttb | btt`. -/
inductive Dir where
  | ltr
  | rtl
  | ttb
  | btt
deriving DecidableEq

/-- Modelled from the spec: an alignment (from the layout module, not in
src/). -/
inductive Align where
  | start
  | center
  | «end»
deriving DecidableEq

/-- Modelled from the spec: `Linear`, a linear combination of a relative
part (w.r.t. the font size) and an absolute length. -/
structure Linear where
  rel : ℚ
  abs : ℚ
deriving DecidableEq

/-- `Linear::ONE`: the purely relative factor one. -/
def Linear.one : Linear := ⟨1, 0⟩

/-- Multiplication of a `Linear` by a scalar (`impl Mul<f64> for Linear`,
used by `ctx.state.font.scale *= upscale`). -/
def Linear.mulScalar (l : Linear) (s : ℚ) : Linear := ⟨l.rel * s, l.abs * s⟩

/-- A color value with alpha channel (`RgbaColor`). -/
structure RgbaColor where
  r : Nat
  g : Nat
  b : Nat
  a : Nat
deriving DecidableEq

/-- Modelled from the spec: the glyph fill (`Fill`), here a solid color. -/
inductive Fill where
  | color (c : RgbaColor)
deriving DecidableEq

/-- Modelled from the spec: a vertical font metric bound of the text
bounding box. -/
inductive VerticalFontMetric where
  | capHeight
  | baseline
deriving DecidableEq

/-- A font style (`fontdock::FontStyle`). -/
inductive FontStyle where
  | normal
  | italic
  | oblique
deriving DecidableEq

/-- The selected font variant (`fontdock::FontVariant`): style, weight and
stretch. Weight and stretch are numeric. -/
structure FontVariant where
  style : FontStyle
  weight : Nat
  stretch : Nat
deriving DecidableEq

/-- Defines page properties (`PageState`). -/
structure PageState where
  /-- The class of this page (paper classes modelled as numbers). -/
  class' : Nat
  /-- The width and height of the page. -/
  size : ℚ × ℚ
  /-- White space on each side; `none` means the paper-class default. -/
  margins : Option Linear × Option Linear × Option Linear × Option Linear
deriving DecidableEq

/-- Defines paragraph properties (`ParState`). -/
structure ParState where
  spacing : Linear
  leading : Linear
  word_spacing : Linear
deriving DecidableEq

/-- Defines font properties (`FontState`). The `families` field is the
`Rc<FamilyMap>` handle: an index into an `RcStore`. -/
structure FontState where
  /-- Handle of the shared list of font families (`Rc<FamilyMap>`). -/
  families : Nat
  variant : FontVariant
  size : ℚ
  scale : Linear
  top_edge : VerticalFontMetric
  bottom_edge : VerticalFontMetric
  strong : Bool
  emph : Bool
  color : Fill
deriving DecidableEq

/-- The evaluation state (`State`). -/
structure State where
  dirs : Dir × Dir
  aligns : Align × Align
  page : PageState
  par : ParState
  font : FontState
deriving DecidableEq

/-! ## Explicit Rc store for the copy-on-write family list -/

/-- The heap of `Rc<FamilyMap>` cells: each cell is the referent together
with its strong count. A `FontState.families` handle is an index into
`cells`. -/
structure RcStore where
  cells : List (FamilyMap × Nat)
deriving DecidableEq

/-- The empty family map, used as an out-of-range default for lookups. -/
def FamilyMap.empty : FamilyMap := ⟨[], [], [], [], []⟩

/-- Read the cell behind handle `i`. -/
def RcStore.lookup (st : RcStore) (i : Nat) : FamilyMap × Nat :=
  st.cells.getD i (FamilyMap.empty, 0)

/-- The family map observed through handle `i`. -/
def RcStore.read (st : RcStore) (i : Nat) : FamilyMap := (st.lookup i).1

/-- `Rc::clone` of the handle `i` (performed by `State::clone`): the strong
count of the cell is incremented; no referent is duplicated. -/
def RcStore.cloneHandle (st : RcStore) (i : Nat) : RcStore :=
  ⟨st.cells.set i ((st.lookup i).1, (st.lookup i).2 + 1)⟩

/-- `Rc::make_mut(&mut self.families)`: if the cell is uniquely owned the
existing cell is written through; otherwise the referent is duplicated into
a fresh cell with count 1, the old count is decremented, and the handle is
repointed. Returns the updated store and the handle to write through. -/
def RcStore.makeMut (st : RcStore) (i : Nat) : RcStore × Nat :=
  if (st.lookup i).2 ≤ 1 then
    (st, i)
  else
    (⟨(st.cells.set i ((st.lookup i).1, (st.lookup i).2 - 1))
        ++ [((st.lookup i).1, 1)]⟩,
     st.cells.length)

/-- `FontState::families_mut` followed by a write: `Rc::make_mut`
privatizes the cell when shared, then the mutation `g` is applied through
the returned mutable reference. Returns the updated store and font state. -/
def FontState.familiesMutApply (st : RcStore) (s : FontState)
    (g : FamilyMap → FamilyMap) : RcStore × FontState :=
  let p := st.makeMut s.families
  (⟨p.1.cells.set p.2 (g (p.1.lookup p.2).1, (p.1.lookup p.2).2)⟩,
   { s with families := p.2 })

/-! ## Execution context and markup templates (src/library/markup.rs) -/

/-- Modelled from the spec: one event on the content sink of the execution
context (the callback surface: line break, paragraph break, literal text). -/
inductive Event where
  | linebreak
  | parbreak
  | text (s : String)
deriving DecidableEq

/-- Modelled from the spec: the execution context seen by templates — the
live formatting state plus the append-only content sink. -/
structure ExecCtx where
  state : State
  events : List Event
deriving DecidableEq

/-- `ctx.parbreak()`: append a paragraph break to the content sink. -/
def ExecCtx.parbreak (c : ExecCtx) : ExecCtx :=
  { c with events := c.events ++ [Event.parbreak] }

/-- The template returned by `strong`: snapshot the state, flip
`font.strong`; if a body was supplied, execute it and restore the snapshot.
Body execution is modelled as an arbitrary context transformer. -/
def strongTemplate (body : Option (ExecCtx → ExecCtx)) (ctx : ExecCtx) :
    ExecCtx :=
  let snapshot := ctx.state
  let ctx1 := { ctx with state := { ctx.state with
    font := { ctx.state.font with strong := !ctx.state.font.strong } } }
  match body with
  | some b => { b ctx1 with state := snapshot }
  | Option.none => ctx1

/-- The template returned by `emph`: snapshot the state, flip `font.emph`;
if a body was supplied, execute it and restore the snapshot. -/
def emphTemplate (body : Option (ExecCtx → ExecCtx)) (ctx : ExecCtx) :
    ExecCtx :=
  let snapshot := ctx.state
  let ctx1 := { ctx with state := { ctx.state with
    font := { ctx.state.font with emph := !ctx.state.font.emph } } }
  match body with
  | some b => { b ctx1 with state := snapshot }
  | Option.none => ctx1

/-- The template returned by `heading`: snapshot the state, multiply the
font scale by `1.6 - 0.1 * level`, force `font.strong`, execute the body,
restore the snapshot, then emit a paragraph break. -/
def headingTemplate (level : ℤ) (body : ExecCtx → ExecCtx) (ctx : ExecCtx) :
    ExecCtx :=
  let snapshot := ctx.state
  let upscale : ℚ := 1.6 - 0.1 * (level : ℚ)
  let ctx1 := { ctx with state := { ctx.state with
    font := { ctx.state.font with
      scale := ctx.state.font.scale.mulScalar upscale
      strong := true } } }
  let ctx2 := body ctx1
  let ctx3 := { ctx2 with state := snapshot }
  ctx3.parbreak

/-! ## Values and tables (src/eval/value.rs) -/

/-- Modelled from the spec: an entry of a `Table` (`SpannedEntry`, from the
table module, not in src/): the key's span together with the spanned
value. -/
structure SpannedEntry (α : Type) where
  key : Span
  val : Spanned α
deriving DecidableEq

/-- Modelled from the spec: a `Table` is an ordered dual-keyed container:
`nums` holds the numeric-keyed entries in strictly increasing key order (the
order `nums()` iterates them), `strs` the string-keyed entries in insertion
order. -/
structure Table (α : Type) where
  nums : List (Nat × α)
  strs : List (String × α)
deriving DecidableEq

/-- A computational value (`Value`). Numbers and lengths are rationals; the
content tree is opaque (a list of node identifiers); a function value
(`FuncValue`, an `Rc<dyn Fn>`) is represented by the identity of its
allocation — `Rc::ptr_eq` compares exactly these identities, and the
closure's behavior lives outside the value (see `C9`). -/
inductive Value where
  | none
  | ident (i : String)
  | str (s : String)
  | bool (b : Bool)
  | number (n : ℚ)
  | length (l : ℚ)
  | color (c : RgbaColor)
  | table (t : Table (SpannedEntry Value))
  | tree (t : List Nat)
  | func (f : Nat)

/-- A table of values (`TableValue`). -/
abbrev TableValue := Table (SpannedEntry Value)

/-! ### Equality on values

`#[derive(Clone, PartialEq)]` on `Value` compares variant-wise and
delegates to the payloads' equality; the manual `PartialEq for FuncValue`
compares with `Rc::ptr_eq`, i.e. by allocation identity, which here is the
`Nat` carried by `Value.func`. The `Table` payload's equality (table module
not in src/) is modelled from the spec as structural equality of both key
spaces. -/

mutual

/-- The derived `PartialEq for Value`: structural on every variant, with
the `Func` arm delegating to `Rc::ptr_eq` on the function object. -/
def valueEq : Value → Value → Bool
  | Value.none, Value.none => true
  | Value.ident a, Value.ident b => decide (a = b)
  | Value.str a, Value.str b => decide (a = b)
  | Value.bool a, Value.bool b => decide (a = b)
  | Value.number a, Value.number b => decide (a = b)
  | Value.length a, Value.length b => decide (a = b)
  | Value.color a, Value.color b => decide (a = b)
  | Value.table a, Value.table b =>
      numEntriesEq a.nums b.nums && strEntriesEq a.strs b.strs
  | Value.tree a, Value.tree b => decide (a = b)
  | Value.func a, Value.func b => decide (a = b)
  | _, _ => false

/-- Structural equality of the numeric-keyed entry lists of two tables. -/
def numEntriesEq :
    List (Nat × SpannedEntry Value) → List (Nat × SpannedEntry Value) → Bool
  | [], [] => true
  | (k, ⟨ekey, ⟨ev, evs⟩⟩) :: xs, (l, ⟨fkey, ⟨fv, fvs⟩⟩) :: ys =>
      decide (k = l) && decide (ekey = fkey) && decide (evs = fvs)
        && valueEq ev fv && numEntriesEq xs ys
  | _, _ => false

/-- Structural equality of the string-keyed entry lists of two tables. -/
def strEntriesEq :
    List (String × SpannedEntry Value) →
      List (String × SpannedEntry Value) → Bool
  | [], [] => true
  | (k, ⟨ekey, ⟨ev, evs⟩⟩) :: xs, (l, ⟨fkey, ⟨fv, fvs⟩⟩) :: ys =>
      decide (k = l) && decide (ekey = fkey) && decide (evs = fvs)
        && valueEq ev fv && strEntriesEq xs ys
  | _, _ => false

end

theorem numEntriesEq_iff (n : Nat)
    (IH : ∀ a b : Value, sizeOf a ≤ n → (valueEq a b = true ↔ a = b)) :
    ∀ l1 l2 : List (Nat × SpannedEntry Value),
      sizeOf l1 ≤ n → (numEntriesEq l1 l2 = true ↔ l1 = l2) := by
  intro l1
  induction l1 with
  | nil =>
      intro l2 h
      cases l2 with
      | nil => simp [numEntriesEq]
      | cons q ys =>
          obtain ⟨l, ⟨fkey, ⟨fv, fvs⟩⟩⟩ := q
          simp [numEntriesEq]
  | cons p xs ih =>
      intro l2 h
      obtain ⟨k, ⟨ekey, ⟨ev, evs⟩⟩⟩ := p
      cases l2 with
      | nil => simp [numEntriesEq]
      | cons q ys =>
          obtain ⟨l, ⟨fkey, ⟨fv, fvs⟩⟩⟩ := q
          simp only [numEntriesEq, Bool.and_eq_true, decide_eq_true_eq,
            List.cons.injEq, Prod.mk.injEq, SpannedEntry.mk.injEq,
            Spanned.mk.injEq]
          simp only [List.cons.sizeOf_spec, Prod.mk.sizeOf_spec,
            SpannedEntry.mk.sizeOf_spec, Spanned.mk.sizeOf_spec] at h
          rw [IH ev fv (by omega), ih ys (by omega)]
          tauto

theorem strEntriesEq_iff (n : Nat)
    (IH : ∀ a b : Value, sizeOf a ≤ n → (valueEq a b = true ↔ a = b)) :
    ∀ l1 l2 : List (String × SpannedEntry Value),
      sizeOf l1 ≤ n → (strEntriesEq l1 l2 = true ↔ l1 = l2) := by
  intro l1
  induction l1 with
  | nil =>
      intro l2 h
      cases l2 with
      | nil => simp [strEntriesEq]
      | cons q ys =>
          obtain ⟨l, ⟨fkey, ⟨fv, fvs⟩⟩⟩ := q
          simp [strEntriesEq]
  | cons p xs ih =>
      intro l2 h
      obtain ⟨k, ⟨ekey, ⟨ev, evs⟩⟩⟩ := p
      cases l2 with
      | nil => simp [strEntriesEq]
      | cons q ys =>
          obtain ⟨l, ⟨fkey, ⟨fv, fvs⟩⟩⟩ := q
          simp only [strEntriesEq, Bool.and_eq_true, decide_eq_true_eq,
            List.cons.injEq, Prod.mk.injEq, SpannedEntry.mk.injEq,
            Spanned.mk.injEq]
          simp only [List.cons.sizeOf_spec, Prod.mk.sizeOf_spec,
            SpannedEntry.mk.sizeOf_spec, Spanned.mk.sizeOf_spec] at h
          rw [IH ev fv (by omega), ih ys (by omega)]
          tauto

theorem valueEq_iff_aux :
    ∀ (n : Nat) (a b : Value), sizeOf a ≤ n →
      (valueEq a b = true ↔ a = b) := by
  intro n
  induction n with
  | zero =>
      intro a b h
      exfalso
      cases a <;> simp at h
  | succ n ihn =>
      intro a b h
      cases a <;> cases b <;> try simp [valueEq]
      case table.table ta tb =>
        obtain ⟨tan, tas⟩ := ta
        obtain ⟨tbn, tbs⟩ := tb
        simp only [valueEq, Bool.and_eq_true, Value.table.injEq,
          Table.mk.injEq]
        simp only [Value.table.sizeOf_spec, Table.mk.sizeOf_spec] at h
        rw [numEntriesEq_iff n ihn tan tbn (by omega),
          strEntriesEq_iff n ihn tas tbs (by omega)]

/-- The program's equality test on values agrees with propositional
equality of the embedding. -/
theorem valueEq_iff (a b : Value) : valueEq a b = true ↔ a = b :=
  valueEq_iff_aux (sizeOf a) a b le_rfl

instance : DecidableEq Value := fun a b =>
  decidable_of_iff (valueEq a b = true) (valueEq_iff a b)

/-- `Value::name`: the natural-language name of the type of a value. -/
def Value.name : Value → String
  | Value.none => "none"
  | Value.ident _ => "identifier"
  | Value.str _ => "string"
  | Value.bool _ => "bool"
  | Value.number _ => "number"
  | Value.length _ => "length"
  | Value.color _ => "color"
  | Value.table _ => "table"
  | Value.tree _ => "syntax tree"
  | Value.func _ => "function"

/-! ## The typed-conversion protocol

A `TryFromValue` instance for a target type `T` is a function from a
spanned value to the converted result together with the diagnostics it
appends to the sink it was handed. -/

/-- The shape of `TryFromValue::try_from_value` for target type `T`. -/
def ConvFun (T : Type) := Spanned Value → Option T × List Diag

/-- `impl_match!(bool, "bool", &Value::Bool(b) => b)`. -/
def boolTryFromValue : ConvFun Bool := fun value =>
  match value.v with
  | Value.bool b => (some b, [])
  | other => (Option.none,
      [⟨value.span, "expected bool, found " ++ other.name⟩])

/-- `impl_match!(String, "string", Value::Str(s) => s.clone())`. -/
def stringTryFromValue : ConvFun String := fun value =>
  match value.v with
  | Value.str s => (some s, [])
  | other => (Option.none,
      [⟨value.span, "expected string, found " ++ other.name⟩])

/-- `impl_match!(f64, "number", &Value::Number(n) => n)`. -/
def numberTryFromValue : ConvFun ℚ := fun value =>
  match value.v with
  | Value.number n => (some n, [])
  | other => (Option.none,
      [⟨value.span, "expected number, found " ++ other.name⟩])

/-- `f64::round`: round half away from zero. -/
def f64Round (q : ℚ) : ℤ :=
  if q < 0 then -Int.floor (-q + 1 / 2) else Int.floor (q + 1 / 2)

/-- Modelled from the spec: `fontdock::FontWeight::from_name`, the named
weight presets. -/
def fontWeightFromName : String → Option Nat
  | "thin" => some 100
  | "extralight" => some 200
  | "light" => some 300
  | "regular" => some 400
  | "medium" => some 500
  | "semibold" => some 600
  | "bold" => some 700
  | "extrabold" => some 800
  | "black" => some 900
  | _ => Option.none

/-- `impl TryFromValue for FontWeight`: numbers are clamped to [100, 900]
with a diagnostic at the bound (still returning the clamped weight),
in-range numbers are rounded; identifiers are parsed against the named
presets; anything else is a type mismatch. The weight payload (`u16`) is a
natural number. -/
def fontWeightTryFromValue : ConvFun Nat := fun value =>
  match value.v with
  | Value.number weight =>
      if weight < 100 then
        (some 100, [⟨value.span, "the minimum font weight is 100"⟩])
      else if weight > 900 then
        (some 900, [⟨value.span, "the maximum font weight is 900"⟩])
      else
        (some (f64Round weight).toNat, [])
  | Value.ident ident =>
      match fontWeightFromName ident with
      | some w => (some w, [])
      | Option.none => (Option.none, [⟨value.span, "invalid font weight"⟩])
  | other => (Option.none,
      [⟨value.span,
        "expected font weight (name or number), found " ++ other.name⟩])

/-! ## The table extraction protocol (src/eval/value.rs, impl TableValue) -/

/-- Modelled from the spec: removing the numeric key `key` from a table
(`self.remove(key)`); keys are unique, so this drops exactly the entries
carrying `key`. -/
def Table.removeNum {α : Type} (t : Table α) (key : Nat) : Table α :=
  ⟨t.nums.filter (fun p => p.1 != key), t.strs⟩

/-- The scanning loop of `TableValue::take`, iterating `self.nums()`. The
conversion's sink is a throwaway `Feedback::new()`, so its diagnostics
(second component of `conv`) are discarded; the third result component is
what `take` reports to any caller-visible sink. -/
def takeGo {T : Type} (conv : ConvFun T) (t : TableValue) :
    List (Nat × SpannedEntry Value) → Option T × TableValue × Feedback
  | [] => (Option.none, t, [])
  | (key, entry) :: rest =>
      match (conv entry.val).1 with
      | some val => (some val, t.removeNum key, [])
      | Option.none => takeGo conv t rest

/-- `TableValue::take::<T>`: retrieve and remove the matching value with
the lowest number key, skipping and ignoring all non-matching entries with
lower keys. -/
def take {T : Type} (conv : ConvFun T) (t : TableValue) :
    Option T × TableValue × Feedback :=
  takeGo conv t t.nums

/-- The `while let Some((num, _)) = self.first()` loop of
`TableValue::expect`: the entry with the lowest numeric key is removed
unconditionally, its conversion diagnostics go to the caller's sink, and on
exhaustion the missing-argument diagnostic is reported at `span`. -/
def expectGo {T : Type} (conv : ConvFun T) (name : String) (span : Span)
    (strs : List (String × SpannedEntry Value)) :
    List (Nat × SpannedEntry Value) → Feedback →
      Option T × TableValue × Feedback
  | [], f => (Option.none, ⟨[], strs⟩,
      f ++ [⟨span, "missing argument: " ++ name⟩])
  | (_, entry) :: rest, f =>
      let r := conv entry.val
      match r.1 with
      | some val => (some val, ⟨rest, strs⟩, f ++ r.2)
      | Option.none => expectGo conv name span strs rest (f ++ r.2)

/-- `TableValue::expect::<T>(name, span, f)`: retrieve and remove the
matching value with the lowest number key, removing and diagnosing all
non-matching entries with lower keys; diagnoses a missing argument at
`span` when no entry matches. -/
def expect {T : Type} (conv : ConvFun T) (name : String) (span : Span)
    (t : TableValue) (f : Feedback) : Option T × TableValue × Feedback :=
  expectGo conv name span t.strs t.nums f

/-- The scan of one `from_fn` call inside `TableValue::take_all_num`,
walking `self.nums().skip(skip)`: `skip` is incremented past every
non-matching entry; the first matching entry is removed and yielded
together with the updated cursor. The conversion's sink is a throwaway
`Feedback::new()`; the second component is the caller-visible feedback. -/
def takeAllStepGo {T : Type} (conv : ConvFun T) (t : TableValue) :
    List (Nat × SpannedEntry Value) → Nat →
      Option ((Nat × T) × TableValue × Nat) × Feedback
  | [], _ => (Option.none, [])
  | (key, entry) :: rest, skip =>
      match (conv entry.val).1 with
      | some val => (some ((key, val), t.removeNum key, skip), [])
      | Option.none => takeAllStepGo conv t rest (skip + 1)

/-- One pull on the iterator returned by `take_all_num`: scan the numeric
entries from cursor position `skip` onwards. -/
def takeAllStep {T : Type} (conv : ConvFun T) (t : TableValue)
    (skip : Nat) : Option ((Nat × T) × TableValue × Nat) × Feedback :=
  takeAllStepGo conv t (t.nums.drop skip) skip

/-- Full consumption of the `take_all_num` iterator, driven by fuel (the
iterator pulls at most one more time than there are numeric entries). -/
def takeAllRun {T : Type} (conv : ConvFun T) :
    Nat → TableValue → Nat → List (Nat × T) × TableValue × Feedback
  | 0, t, _ => ([], t, [])
  | fuel + 1, t, skip =>
      let s := takeAllStep conv t skip
      match s.1 with
      | Option.none => ([], t, s.2)
      | some (p, t1, skip1) =>
          let r := takeAllRun conv fuel t1 skip1
          (p :: r.1, r.2.1, s.2 ++ r.2.2)

/-- `TableValue::take_all_num::<T>`, fully consumed: the yielded pairs in
order, the table left behind, and the caller-visible feedback. -/
def takeAllNum {T : Type} (conv : ConvFun T) (t : TableValue) :
    List (Nat × T) × TableValue × Feedback :=
  takeAllRun conv (t.nums.length + 1) t 0

/-! ## Claim theorems -/

/-- C8: For every family map, the resolution iterator yields exactly each
selector of the user list in order — a named selector contributing its
single name, a generic selector its backing list in order — followed by the
base fallback list in order, with no deduplication; in particular, for
list=[Named "x", SansSerif], sans_serif=["a","b"], base=["z"] the sequence
is exactly ["x","a","b","z"]. -/
theorem familyMap_iter_resolution (m : FamilyMap) :
    m.iter
      = (m.list.map fun family =>
          match family with
          | FontFamily.named name => [name]
          | FontFamily.serif => m.serif
          | FontFamily.sansSerif => m.sans_serif
          | FontFamily.monospace => m.monospace).flatten
        ++ m.base
    ∧ FamilyMap.iter
        ⟨[FontFamily.named "x", FontFamily.sansSerif],
         [], ["a", "b"], [], ["z"]⟩
      = ["x", "a", "b", "z"] := by
  constructor
  · simp [FamilyMap.iter, List.flatMap_def]
  · rfl

/-- C5: Executing the template produced by `strong` (resp. `emph`) flips
the boolean `font.strong` (resp. `font.emph`) field of the live state; with
a body, the body runs against the mutated state and afterwards the entire
state is restored to the pre-mutation snapshot; without a body, the flipped
value persists and nothing else changes. -/
theorem strong_emph_template_scoping (ctx : ExecCtx)
    (b : ExecCtx → ExecCtx) :
    strongTemplate (some b) ctx
        = { b { ctx with state := { ctx.state with font :=
              { ctx.state.font with strong := !ctx.state.font.strong } } }
            with state := ctx.state }
    ∧ (strongTemplate (some b) ctx).state = ctx.state
    ∧ strongTemplate Option.none ctx
        = { ctx with state := { ctx.state with font :=
            { ctx.state.font with strong := !ctx.state.font.strong } } }
    ∧ emphTemplate (some b) ctx
        = { b { ctx with state := { ctx.state with font :=
              { ctx.state.font with emph := !ctx.state.font.emph } } }
            with state := ctx.state }
    ∧ (emphTemplate (some b) ctx).state = ctx.state
    ∧ emphTemplate Option.none ctx
        = { ctx with state := { ctx.state with font :=
            { ctx.state.font with emph := !ctx.state.font.emph } } } :=
  ⟨rfl, rfl, rfl, rfl, rfl, rfl⟩

/-- C7: The template produced by `heading` with level L multiplies the
font scale by 1.6 − 0.1·L and forces `font.strong := true`, executes the
body against that mutated state, restores the entire state to the
pre-mutation snapshot, and after the restore emits exactly one paragraph
break. -/
theorem heading_template_spec (level : ℤ) (b : ExecCtx → ExecCtx)
    (ctx : ExecCtx) :
    headingTemplate level b ctx
      = { state := ctx.state,
          events :=
            (b { ctx with state := { ctx.state with font :=
                { ctx.state.font with
                    scale := ctx.state.font.scale.mulScalar
                      (1.6 - 0.1 * (level : ℚ))
                    strong := true } } }).events
            ++ [Event.parbreak] } :=
  rfl

/-- C3: The font-weight conversion applied to a `Number` clamps
out-of-range inputs and still returns a usable value: Number 50 gives
weight 100 with exactly the diagnostic "the minimum font weight is 100" at
the value's span; Number 1000 gives weight 900 with "the maximum font
weight is 900"; Number 400 gives weight 400 with no diagnostic. -/
theorem fontWeight_clamping (s : Span) :
    fontWeightTryFromValue ⟨Value.number 50, s⟩
        = (some 100, [⟨s, "the minimum font weight is 100"⟩])
    ∧ fontWeightTryFromValue ⟨Value.number 1000, s⟩
        = (some 900, [⟨s, "the maximum font weight is 900"⟩])
    ∧ fontWeightTryFromValue ⟨Value.number 400, s⟩ = (some 400, []) := by
  refine ⟨?_, ?_, ?_⟩ <;>
    · norm_num [fontWeightTryFromValue, f64Round]
      try rfl

/-- C10: For every number w with 100 ≤ w ≤ 900, the font-weight conversion
given Number w succeeds with no diagnostic and returns the nearest integer
to w, rounding ties away from zero (for such positive w this is
⌊w + 1/2⌋); in particular Number 450.7 yields weight 451. -/
theorem fontWeight_inRange_rounds (w : ℚ) (s : Span)
    (h1 : 100 ≤ w) (h2 : w ≤ 900) :
    fontWeightTryFromValue ⟨Value.number w, s⟩
        = (some (Int.floor (w + 1 / 2)).toNat, [])
    ∧ |w - ((Int.floor (w + 1 / 2) : ℤ) : ℚ)| ≤ 1 / 2
    ∧ fontWeightTryFromValue ⟨Value.number 450.7, s⟩ = (some 451, []) := by
  refine ⟨?_, ?_, ?_⟩
  · simp only [fontWeightTryFromValue]
    rw [if_neg (by linarith), if_neg (by linarith)]
    have h : f64Round w = Int.floor (w + 1 / 2) := if_neg (by linarith)
    rw [h]
  · rw [abs_le]
    have hlt := Int.lt_floor_add_one (w + 1 / 2)
    have hle := Int.floor_le (w + 1 / 2)
    constructor <;> linarith
  · norm_num [fontWeightTryFromValue, f64Round]
    rfl

/-- Witness for C10 at w = 450.7. -/
theorem fontWeight_inRange_rounds_witness :
    (100 : ℚ) ≤ 450.7 ∧ (450.7 : ℚ) ≤ 900
    ∧ fontWeightTryFromValue ⟨Value.number 450.7, Span.zero⟩
        = (some 451, []) := by
  refine ⟨by norm_num, by norm_num, ?_⟩
  exact (fontWeight_inRange_rounds 450.7 Span.zero (by norm_num)
    (by norm_num)).2.2

/-- C9: Equality on `Value` is structural for every tag except `Func`: two
function values are equal exactly when they wrap the same underlying
function object (pointer identity), so two distinct closures compare
unequal even with identical behavior (the behavior environment `env` maps
each function handle to its behavior); for every other tag two values are
equal exactly when their tags and payloads are equal — the equality test
agrees with structural equality of the embedding, whose `func` payload is
the allocation identity. -/
theorem value_equality_structural_except_func :
    (∀ i j : Nat, valueEq (Value.func i) (Value.func j) = decide (i = j))
    ∧ (∀ (env : Nat → Nat → Nat) (i j : Nat), i ≠ j → env i = env j →
        valueEq (Value.func i) (Value.func j) = false)
    ∧ (∀ a b : Value, valueEq a b = true ↔ a = b)
    ∧ (∀ a b : Value, valueEq a b = true → a.name = b.name) := by
  refine ⟨?_, ?_, valueEq_iff, ?_⟩
  · intro i j
    simp [valueEq]
  · intro env i j hij _
    simp [valueEq, hij]
  · intro a b h
    rw [valueEq_iff] at h
    rw [h]

/-- Witness for C9: handles 0 and 1 carry the same behavior yet the values
compare unequal. -/
theorem value_equality_structural_except_func_witness :
    (0 : Nat) ≠ 1
    ∧ (fun _ : Nat => fun n : Nat => n + 1) 0
        = (fun _ : Nat => fun n : Nat => n + 1) 1
    ∧ valueEq (Value.func 0) (Value.func 1) = false :=
  ⟨by decide, rfl,
   value_equality_structural_except_func.2.1
     (fun _ => fun n => n + 1) 0 1 (by decide) rfl⟩

/-! ### Helper lemmas about `List.getD` and `List.set` -/

theorem getD_set_self {α : Type} :
    ∀ (l : List α) (i : Nat) (x d : α), i < l.length →
      (l.set i x).getD i d = x := by
  intro l
  induction l with
  | nil => intro i x d h; simp at h
  | cons a as ih =>
      intro i x d h
      cases i with
      | zero => rfl
      | succ n =>
          simp only [List.set, List.getD_cons_succ]
          exact ih n x d (by simpa using h)

theorem getD_append_left {α : Type} :
    ∀ (A B : List α) (i : Nat) (d : α), i < A.length →
      (A ++ B).getD i d = A.getD i d := by
  intro A
  induction A with
  | nil => intro B i d h; simp at h
  | cons a as ih =>
      intro B i d h
      cases i with
      | zero => rfl
      | succ n =>
          simp only [List.cons_append, List.getD_cons_succ]
          exact ih B n d (by simpa using h)

theorem getD_append_length {α : Type} :
    ∀ (A : List α) (x d : α), (A ++ [x]).getD A.length d = x := by
  intro A
  induction A with
  | nil => intro x d; rfl
  | cons a as ih =>
      intro x d
      simp only [List.cons_append, List.getD_cons_succ]
      exact ih x d

theorem set_append_length {α : Type} :
    ∀ (A : List α) (x y : α), (A ++ [x]).set A.length y = A ++ [y] := by
  intro A
  induction A with
  | nil => intro x y; rfl
  | cons a as ih =>
      intro x y
      simp [List.cons_append, ih x y]

/-- C6: Cloning a formatting state is observationally independent: the
family list is shared through an `Rc` handle, a write through the clone
(`families_mut`) privatizes the shared cell at the moment of the write, so
the original's view never changes; the backing storage is duplicated
exactly when the write happens while the cell is shared — cloning alone
never duplicates, and a write through a uniquely-owned handle mutates in
place without duplication. -/
theorem fontState_clone_cow (st : RcStore) (s : FontState)
    (g : FamilyMap → FamilyMap)
    (hvalid : s.families < st.cells.length)
    (hcnt : 1 ≤ (st.lookup s.families).2) :
    (st.cloneHandle s.families).cells.length = st.cells.length
    ∧ ((FontState.familiesMutApply (st.cloneHandle s.families) s g).1).read
        s.families = st.read s.families
    ∧ ((FontState.familiesMutApply (st.cloneHandle s.families) s g).1).read
        ((FontState.familiesMutApply (st.cloneHandle s.families) s g).2).families
        = g (st.read s.families)
    ∧ ((FontState.familiesMutApply
          (st.cloneHandle s.families) s g).1).cells.length
        = st.cells.length + 1
    ∧ ((st.lookup s.families).2 = 1 →
        (FontState.familiesMutApply st s g).1.cells.length = st.cells.length
        ∧ (FontState.familiesMutApply st s g).1.read
            ((FontState.familiesMutApply st s g).2).families
          = g (st.read s.families)) := by
  set i := s.families with hi
  set v := (st.lookup i).1 with hv
  set c := (st.lookup i).2 with hc
  have hclone : (st.cloneHandle i).cells = st.cells.set i (v, c + 1) := rfl
  have hlen1 : (st.cloneHandle i).cells.length = st.cells.length := by
    rw [hclone, List.length_set]
  have hlookup1 : (st.cloneHandle i).lookup i = (v, c + 1) := by
    show (st.cloneHandle i).cells.getD i (FamilyMap.empty, 0) = (v, c + 1)
    rw [hclone]
    exact getD_set_self st.cells i (v, c + 1) (FamilyMap.empty, 0) hvalid
  have hshared : ¬ ((st.cloneHandle i).lookup i).2 ≤ 1 := by
    rw [hlookup1]
    omega
  have hmm : (st.cloneHandle i).makeMut i
      = (⟨st.cells.set i (v, c) ++ [(v, 1)]⟩, st.cells.length) := by
    rw [RcStore.makeMut, if_neg hshared, hlookup1, hclone]
    simp [List.set_set, List.length_set]
  have hA : (st.cells.set i (v, c)).length = st.cells.length := by
    rw [List.length_set]
  have hlookupj :
      (⟨st.cells.set i (v, c) ++ [(v, 1)]⟩ : RcStore).lookup st.cells.length
        = (v, 1) := by
    show (st.cells.set i (v, c) ++ [(v, 1)]).getD st.cells.length
        (FamilyMap.empty, 0) = (v, 1)
    rw [← hA]
    exact getD_append_length _ _ _
  have happly : FontState.familiesMutApply (st.cloneHandle i) s g
      = (⟨st.cells.set i (v, c) ++ [(g v, 1)]⟩,
         { s with families := st.cells.length }) := by
    rw [FontState.familiesMutApply, ← hi, hmm]
    simp only [hlookupj]
    congr 1
    show (⟨(st.cells.set i (v, c) ++ [(v, 1)]).set st.cells.length
        (g v, 1)⟩ : RcStore)
      = (⟨st.cells.set i (v, c) ++ [(g v, 1)]⟩ : RcStore)
    rw [← hA, set_append_length]
  refine ⟨hlen1, ?_, ?_, ?_, ?_⟩
  · rw [happly]
    show ((st.cells.set i (v, c) ++ [(g v, 1)]).getD i
        (FamilyMap.empty, 0)).1 = st.read i
    rw [getD_append_left _ _ _ _ (by rw [hA]; exact hvalid)]
    rw [getD_set_self st.cells i (v, c) (FamilyMap.empty, 0) hvalid]
    rfl
  · rw [happly]
    show ((st.cells.set i (v, c) ++ [(g v, 1)]).getD st.cells.length
        (FamilyMap.empty, 0)).1 = g (st.read i)
    rw [← hA, getD_append_length]
    rfl
  · rw [happly]
    show (st.cells.set i (v, c) ++ [(g v, 1)]).length = st.cells.length + 1
    rw [List.length_append, hA]
    rfl
  · intro h1
    have hmm2 : st.makeMut i = (st, i) := by
      rw [RcStore.makeMut, if_pos]
      rw [← hc, h1]
    have happly2 : FontState.familiesMutApply st s g
        = ({ cells := st.cells.set i (g v, c) }, { s with families := i }) := by
      simp only [FontState.familiesMutApply, hmm2]
    constructor
    · rw [happly2]
      show (st.cells.set i (g v, c)).length = st.cells.length
      rw [List.length_set]
    · rw [happly2]
      show ((st.cells.set i (g v, c)).getD i (FamilyMap.empty, 0)).1
          = g (st.read i)
      rw [getD_set_self st.cells i (g v, c) (FamilyMap.empty, 0) hvalid]
      rfl

/-- Witness for C6: a one-cell store holding a family map with one serif
name, handle 0, count 1. -/
theorem fontState_clone_cow_witness :
    (0 : Nat) < 1
    ∧ 1 ≤ ((⟨[(FamilyMap.empty, 1)]⟩ : RcStore).lookup 0).2
    ∧ ((⟨[(FamilyMap.empty, 1)]⟩ : RcStore).cloneHandle 0).cells.length = 1 := by
  have h := fontState_clone_cow ⟨[(FamilyMap.empty, 1)]⟩
    ⟨0, ⟨FontStyle.normal, 400, 5⟩, 11, Linear.one,
     VerticalFontMetric.capHeight, VerticalFontMetric.baseline,
     false, false, Fill.color ⟨0, 0, 0, 255⟩⟩
    (fun m => m) (by decide) (by decide)
  exact ⟨by decide, by decide, h.1⟩

/-! ### Helper lemmas for the extraction protocol -/

theorem takeGo_diags {T : Type} (conv : ConvFun T) (t : TableValue) :
    ∀ l, (takeGo conv t l).2.2 = [] := by
  intro l
  induction l with
  | nil => rfl
  | cons p rest ih =>
      obtain ⟨key, entry⟩ := p
      rcases hcv : (conv entry.val).1 with _ | val
      · simpa [takeGo, hcv] using ih
      · simp [takeGo, hcv]

theorem takeGo_none {T : Type} (conv : ConvFun T) (t : TableValue) :
    ∀ l, (∀ p ∈ l, (conv p.2.val).1 = Option.none) →
      takeGo conv t l = (Option.none, t, []) := by
  intro l
  induction l with
  | nil => intro _; rfl
  | cons p rest ih =>
      intro h
      obtain ⟨key, entry⟩ := p
      have h0 : (conv entry.val).1 = Option.none := h (key, entry) (by simp)
      simp only [takeGo, h0]
      exact ih (fun q hq => h q (by simp [hq]))

theorem takeGo_found {T : Type} (conv : ConvFun T) (t : TableValue) :
    ∀ (pre : List (Nat × SpannedEntry Value)) (k : Nat)
      (e : SpannedEntry Value) (post : List (Nat × SpannedEntry Value))
      (v : T),
      (∀ p ∈ pre, (conv p.2.val).1 = Option.none) →
      (conv e.val).1 = some v →
      takeGo conv t (pre ++ (k, e) :: post)
        = (some v, t.removeNum k, []) := by
  intro pre
  induction pre with
  | nil =>
      intro k e post v _ hv
      simp [takeGo, hv]
  | cons p rest ih =>
      intro k e post v hpre hv
      obtain ⟨pk, pe⟩ := p
      have h0 : (conv pe.val).1 = Option.none := hpre (pk, pe) (by simp)
      simp only [List.cons_append, takeGo, h0]
      exact ih k e post v (fun q hq => hpre q (by simp [hq])) hv

theorem removeNum_of_sorted (t : TableValue)
    (pre post : List (Nat × SpannedEntry Value)) (k : Nat)
    (e : SpannedEntry Value)
    (hsplit : t.nums = pre ++ (k, e) :: post)
    (hkeys : t.nums.Pairwise (fun p q => p.1 < q.1)) :
    t.removeNum k = ⟨pre ++ post, t.strs⟩ := by
  rw [hsplit] at hkeys
  rw [List.pairwise_append] at hkeys
  obtain ⟨-, hrest, hcross⟩ := hkeys
  rw [List.pairwise_cons] at hrest
  obtain ⟨hpost, -⟩ := hrest
  show (⟨t.nums.filter (fun p => p.1 != k), t.strs⟩ : TableValue)
      = ⟨pre ++ post, t.strs⟩
  rw [hsplit, List.filter_append]
  have h1 : pre.filter (fun p => p.1 != k) = pre := by
    rw [List.filter_eq_self]
    intro p hp
    have : p.1 < k := hcross p hp (k, e) (by simp)
    simp
    omega
  have h2 : ((k, e) :: post).filter (fun p => p.1 != k) = post := by
    rw [List.filter_cons]
    have hk : ((k, e).1 != k) = false := by simp
    rw [hk]
    simp only [Bool.false_eq_true, if_false]
    rw [List.filter_eq_self]
    intro p hp
    have : k < p.1 := hpost p hp
    simp
    omega
  rw [h1, h2]

/-- C1: `take::<T>` reports no diagnostic to any caller-visible sink,
regardless of the table's contents; it scans the numeric-keyed entries in
increasing key order (the order of `nums`), and on the first entry that
converts it removes exactly that entry and returns the converted value,
leaving every skipped entry unchanged; if no numeric entry converts it
returns nothing and the table is unchanged. -/
theorem take_spec {T : Type} (conv : ConvFun T) (t : TableValue)
    (hkeys : t.nums.Pairwise (fun p q => p.1 < q.1)) :
    (take conv t).2.2 = []
    ∧ ((∀ p ∈ t.nums, (conv p.2.val).1 = Option.none) →
        take conv t = (Option.none, t, []))
    ∧ (∀ (pre : List (Nat × SpannedEntry Value)) (k : Nat)
        (e : SpannedEntry Value) (post : List (Nat × SpannedEntry Value))
        (v : T),
        t.nums = pre ++ (k, e) :: post →
        (∀ p ∈ pre, (conv p.2.val).1 = Option.none) →
        (conv e.val).1 = some v →
        take conv t = (some v, ⟨pre ++ post, t.strs⟩, [])) := by
  refine ⟨takeGo_diags conv t t.nums, ?_, ?_⟩
  · intro h
    exact takeGo_none conv t t.nums h
  · intro pre k e post v hsplit hpre hv
    have hfound := takeGo_found conv t pre k e post v hpre hv
    rw [take, hsplit, hfound,
      removeNum_of_sorted t pre post k e hsplit hkeys]

/-- A sample table entry without interesting spans. -/
def sampleEntry (v : Value) : SpannedEntry Value :=
  ⟨Span.zero, ⟨v, Span.zero⟩⟩

/-- Witness for C1 (scenario A of the spec): key 1 holds a bool, key 2 a
string; `take::<String>` skips key 1, removes key 2, reports nothing. -/
theorem take_spec_witness :
    ([(1, sampleEntry (Value.bool false)),
      (2, sampleEntry (Value.str "hi"))] :
        List (Nat × SpannedEntry Value)).Pairwise (fun p q => p.1 < q.1)
    ∧ take stringTryFromValue
        ⟨[(1, sampleEntry (Value.bool false)),
          (2, sampleEntry (Value.str "hi"))], []⟩
      = (some "hi", ⟨[(1, sampleEntry (Value.bool false))], []⟩, []) := by
  have hp : ([(1, sampleEntry (Value.bool false)),
      (2, sampleEntry (Value.str "hi"))] :
        List (Nat × SpannedEntry Value)).Pairwise (fun p q => p.1 < q.1) := by
    norm_num [List.pairwise_cons]
  refine ⟨hp, ?_⟩
  exact (take_spec stringTryFromValue
      ⟨[(1, sampleEntry (Value.bool false)),
        (2, sampleEntry (Value.str "hi"))], []⟩ hp).2.2
    [(1, sampleEntry (Value.bool false))] 2
    (sampleEntry (Value.str "hi")) [] "hi" rfl
    (by intro p hp'; simp at hp'; rw [hp']; rfl) rfl

theorem expectGo_none {T : Type} (conv : ConvFun T) (name : String)
    (span : Span) (strs : List (String × SpannedEntry Value)) :
    ∀ l f, (∀ p ∈ l, (conv p.2.val).1 = Option.none) →
      expectGo conv name span strs l f
        = (Option.none, ⟨[], strs⟩,
           f ++ l.flatMap (fun p => (conv p.2.val).2)
             ++ [⟨span, "missing argument: " ++ name⟩]) := by
  intro l
  induction l with
  | nil =>
      intro f _
      simp [expectGo]
  | cons p rest ih =>
      intro f h
      obtain ⟨pk, pe⟩ := p
      have h0 : (conv pe.val).1 = Option.none := h (pk, pe) (by simp)
      simp only [expectGo, h0]
      rw [ih (f ++ (conv pe.val).2) (fun q hq => h q (by simp [hq]))]
      simp [List.append_assoc]

theorem expectGo_found {T : Type} (conv : ConvFun T) (name : String)
    (span : Span) (strs : List (String × SpannedEntry Value)) :
    ∀ (pre : List (Nat × SpannedEntry Value)) (k : Nat)
      (e : SpannedEntry Value) (post : List (Nat × SpannedEntry Value))
      (v : T) (f : Feedback),
      (∀ p ∈ pre, (conv p.2.val).1 = Option.none) →
      (conv e.val).1 = some v →
      expectGo conv name span strs (pre ++ (k, e) :: post) f
        = (some v, ⟨post, strs⟩,
           f ++ pre.flatMap (fun p => (conv p.2.val).2) ++ (conv e.val).2) := by
  intro pre
  induction pre with
  | nil =>
      intro k e post v f _ hv
      simp [expectGo, hv]
  | cons p rest ih =>
      intro k e post v f hpre hv
      obtain ⟨pk, pe⟩ := p
      have h0 : (conv pe.val).1 = Option.none := hpre (pk, pe) (by simp)
      simp only [List.cons_append, expectGo, h0, List.append_eq]
      rw [ih k e post v (f ++ (conv pe.val).2)
        (fun q hq => hpre q (by simp [hq])) hv]
      simp [List.append_assoc]

theorem flatMap_diags_length {T : Type} (conv : ConvFun T)
    (hfail : ∀ sv : Spanned Value,
      (conv sv).1 = Option.none → ((conv sv).2).length = 1) :
    ∀ l : List (Nat × SpannedEntry Value),
      (∀ p ∈ l, (conv p.2.val).1 = Option.none) →
      (l.flatMap (fun p => (conv p.2.val).2)).length = l.length := by
  intro l
  induction l with
  | nil => intro _; rfl
  | cons p rest ih =>
      intro h
      rw [List.flatMap_cons, List.length_append,
        hfail p.2.val (h p (by simp)),
        ih (fun q hq => h q (by simp [hq])), List.length_cons]
      omega

/-- C2: `expect::<T>(name, span)` visits numeric-keyed entries in
increasing key order, unconditionally removing each visited entry; with a
conversion that reports exactly one diagnostic on failure and none on
success, it reports exactly one type-mismatch diagnostic per removed
non-matching entry and stops with the converted value at the first entry
that converts; if the numeric entries are exhausted without success it
removes them all and reports exactly one "missing argument: name"
diagnostic at the given span, returning nothing; the missing-argument
diagnostic is never part of the output when a value is returned. -/
theorem expect_spec {T : Type} (conv : ConvFun T) (name : String)
    (span : Span) (t : TableValue) (f : Feedback)
    (hfail : ∀ sv : Spanned Value,
      (conv sv).1 = Option.none → ((conv sv).2).length = 1)
    (hok : ∀ (sv : Spanned Value) (v : T),
      (conv sv).1 = some v → (conv sv).2 = []) :
    ((∀ p ∈ t.nums, (conv p.2.val).1 = Option.none) →
      expect conv name span t f
        = (Option.none, (⟨[], t.strs⟩ : TableValue),
           f ++ t.nums.flatMap (fun p => (conv p.2.val).2)
             ++ [⟨span, "missing argument: " ++ name⟩])
      ∧ (f ++ t.nums.flatMap (fun p => (conv p.2.val).2)
           ++ [(⟨span, "missing argument: " ++ name⟩ : Diag)]).length
          = f.length + t.nums.length + 1)
    ∧ (∀ (pre : List (Nat × SpannedEntry Value)) (k : Nat)
        (e : SpannedEntry Value) (post : List (Nat × SpannedEntry Value))
        (v : T),
        t.nums = pre ++ (k, e) :: post →
        (∀ p ∈ pre, (conv p.2.val).1 = Option.none) →
        (conv e.val).1 = some v →
        expect conv name span t f
          = (some v, ⟨post, t.strs⟩,
             f ++ pre.flatMap (fun p => (conv p.2.val).2))
        ∧ (f ++ pre.flatMap (fun p => (conv p.2.val).2)).length
            = f.length + pre.length) := by
  constructor
  · intro h
    constructor
    · exact expectGo_none conv name span t.strs t.nums f h
    · rw [List.length_append, List.length_append,
        flatMap_diags_length conv hfail t.nums h]
      simp
  · intro pre k e post v hsplit hpre hv
    constructor
    · rw [expect, hsplit,
        expectGo_found conv name span t.strs pre k e post v f hpre hv,
        hok e.val v hv, List.append_nil]
    · rw [List.length_append,
        flatMap_diags_length conv hfail pre hpre]

/-- On a non-string value the string conversion fails with exactly one
diagnostic. -/
theorem stringConv_fail_one (sv : Spanned Value)
    (h : (stringTryFromValue sv).1 = Option.none) :
    ((stringTryFromValue sv).2).length = 1 := by
  obtain ⟨v, sp⟩ := sv
  cases v <;> simp [stringTryFromValue] at h ⊢

/-- On success the string conversion reports nothing. -/
theorem stringConv_ok_silent (sv : Spanned Value) (v : String)
    (h : (stringTryFromValue sv).1 = some v) :
    (stringTryFromValue sv).2 = [] := by
  obtain ⟨w, sp⟩ := sv
  cases w <;> simp [stringTryFromValue] at h ⊢

/-- Witness for C2 (scenario B of the spec): keys 1, 3, 5 hold bool,
string, bool; `expect::<String>` removes keys 1 and 3, diagnoses the bool
at key 1, returns "hi", leaves key 5. -/
theorem expect_spec_witness :
    expect stringTryFromValue "" Span.zero
        ⟨[(1, sampleEntry (Value.bool false)),
          (3, sampleEntry (Value.str "hi")),
          (5, sampleEntry (Value.bool true))], []⟩ []
      = (some "hi", ⟨[(5, sampleEntry (Value.bool true))], []⟩,
         [⟨Span.zero, "expected string, found bool"⟩]) := by
  have h := (expect_spec stringTryFromValue "" Span.zero
      ⟨[(1, sampleEntry (Value.bool false)),
        (3, sampleEntry (Value.str "hi")),
        (5, sampleEntry (Value.bool true))], []⟩ []
      stringConv_fail_one stringConv_ok_silent).2
    [(1, sampleEntry (Value.bool false))] 3
    (sampleEntry (Value.str "hi"))
    [(5, sampleEntry (Value.bool true))] "hi" rfl
    (by intro p hp'; simp at hp'; rw [hp']; rfl) rfl
  rw [h.1]
  rfl

theorem exists_first_success {T : Type} (conv : ConvFun T) :
    ∀ l : List (Nat × SpannedEntry Value),
      ¬ (∀ p ∈ l, (conv p.2.val).1 = Option.none) →
      ∃ (A : List (Nat × SpannedEntry Value)) (k : Nat)
        (e : SpannedEntry Value) (B : List (Nat × SpannedEntry Value))
        (v : T),
        l = A ++ (k, e) :: B
        ∧ (∀ p ∈ A, (conv p.2.val).1 = Option.none)
        ∧ (conv e.val).1 = some v := by
  intro l
  induction l with
  | nil =>
      intro h
      exact absurd (by simp) h
  | cons p rest ih =>
      intro h
      obtain ⟨pk, pe⟩ := p
      rcases hc : (conv pe.val).1 with _ | v
      · have h2 : ¬ (∀ p ∈ rest, (conv p.2.val).1 = Option.none) := by
          intro hall
          refine h ?_
          intro q hq
          rcases List.mem_cons.mp hq with hq1 | hq2
          · rw [hq1]
            exact hc
          · exact hall q hq2
        obtain ⟨A, k, e, B, v, h1, hA, h3⟩ := ih h2
        refine ⟨(pk, pe) :: A, k, e, B, v, by rw [h1]; rfl, ?_, h3⟩
        intro q hq
        rcases List.mem_cons.mp hq with hq1 | hq2
        · rw [hq1]
          exact hc
        · exact hA q hq2
      · exact ⟨[], pk, pe, rest, v, rfl, by simp, hc⟩

theorem takeAllStepGo_none {T : Type} (conv : ConvFun T) (t : TableValue) :
    ∀ l skip, (∀ p ∈ l, (conv p.2.val).1 = Option.none) →
      takeAllStepGo conv t l skip = (Option.none, []) := by
  intro l
  induction l with
  | nil => intro skip _; rfl
  | cons p rest ih =>
      intro skip h
      obtain ⟨pk, pe⟩ := p
      have h0 : (conv pe.val).1 = Option.none := h (pk, pe) (by simp)
      simp only [takeAllStepGo, h0]
      exact ih (skip + 1) (fun q hq => h q (by simp [hq]))

theorem takeAllStepGo_found {T : Type} (conv : ConvFun T) (t : TableValue) :
    ∀ (A : List (Nat × SpannedEntry Value)) (k : Nat)
      (e : SpannedEntry Value) (B : List (Nat × SpannedEntry Value))
      (skip : Nat) (v : T),
      (∀ p ∈ A, (conv p.2.val).1 = Option.none) →
      (conv e.val).1 = some v →
      takeAllStepGo conv t (A ++ (k, e) :: B) skip
        = (some ((k, v), t.removeNum k, skip + A.length), []) := by
  intro A
  induction A with
  | nil =>
      intro k e B skip v _ hv
      simp [takeAllStepGo, hv]
  | cons p rest ih =>
      intro k e B skip v hA hv
      obtain ⟨pk, pe⟩ := p
      have h0 : (conv pe.val).1 = Option.none := hA (pk, pe) (by simp)
      simp only [List.cons_append, takeAllStepGo, h0, List.append_eq]
      rw [ih k e B (skip + 1) v (fun q hq => hA q (by simp [hq])) hv]
      simp [List.length_cons]
      omega

theorem takeAllRun_spec {T : Type} (conv : ConvFun T) :
    ∀ (fuel : Nat) (R F : List (Nat × SpannedEntry Value)) (t : TableValue),
      t.nums = F ++ R →
      t.nums.Pairwise (fun p q => p.1 < q.1) →
      (∀ p ∈ F, (conv p.2.val).1 = Option.none) →
      R.length < fuel →
      takeAllRun conv fuel t F.length
        = (R.filterMap
             (fun p => ((conv p.2.val).1).map (fun v => (p.1, v))),
           (⟨F ++ R.filter (fun p => ((conv p.2.val).1).isNone),
             t.strs⟩ : TableValue), []) := by
  intro fuel
  induction fuel with
  | zero =>
      intro R F t _ _ _ hlen
      omega
  | succ fuel ih =>
      intro R F t hsplit hkeys hF hlen
      have hdrop : t.nums.drop F.length = R := by
        rw [hsplit]
        exact List.drop_left F R
      by_cases hall : ∀ p ∈ R, (conv p.2.val).1 = Option.none
      · have hstep : takeAllStep conv t F.length = (Option.none, []) := by
          rw [takeAllStep, hdrop]
          exact takeAllStepGo_none conv t R F.length hall
        have h1 : R.filterMap
            (fun p => ((conv p.2.val).1).map (fun v => (p.1, v))) = [] := by
          rw [List.filterMap_eq_nil_iff]
          intro p hp
          rw [hall p hp]
          rfl
        have h2 : R.filter (fun p => ((conv p.2.val).1).isNone) = R := by
          rw [List.filter_eq_self]
          intro p hp
          rw [hall p hp]
          rfl
        simp only [takeAllRun, hstep]
        rw [h1, h2, ← hsplit]
      · obtain ⟨A, k, e, B, v, hR, hA, hv⟩ :=
          exists_first_success conv R hall
        have hsplit2 : t.nums = (F ++ A) ++ (k, e) :: B := by
          rw [hsplit, hR, List.append_assoc]
        have hstep : takeAllStep conv t F.length
            = (some ((k, v), t.removeNum k, F.length + A.length), []) := by
          rw [takeAllStep, hdrop, hR]
          exact takeAllStepGo_found conv t A k e B F.length v hA hv
        have hrm : t.removeNum k = ⟨(F ++ A) ++ B, t.strs⟩ :=
          removeNum_of_sorted t (F ++ A) B k e hsplit2 hkeys
        have hkeys1 : ((F ++ A) ++ B).Pairwise (fun p q => p.1 < q.1) := by
          refine List.Pairwise.sublist ?_ (hsplit2 ▸ hkeys)
          exact (List.append_sublist_append_left (F ++ A)).mpr
            (List.sublist_cons_self (k, e) B)
        have hF1 : ∀ p ∈ F ++ A, (conv p.2.val).1 = Option.none := by
          intro p hp
          rcases List.mem_append.mp hp with hp1 | hp2
          · exact hF p hp1
          · exact hA p hp2
        have hlen1 : B.length < fuel := by
          rw [hR] at hlen
          rw [List.length_append, List.length_cons] at hlen
          omega
        have hrec := ih B (F ++ A) ⟨(F ++ A) ++ B, t.strs⟩ rfl hkeys1 hF1 hlen1
        simp only [takeAllRun, hstep, hrm]
        rw [show F.length + A.length = (F ++ A).length by
          rw [List.length_append]]
        rw [hrec]
        rw [hR, List.filterMap_append, List.filter_append]
        have hAfm : A.filterMap
            (fun p => ((conv p.2.val).1).map (fun v => (p.1, v))) = [] := by
          rw [List.filterMap_eq_nil_iff]
          intro p hp
          rw [hA p hp]
          rfl
        have hAfl : A.filter (fun p => ((conv p.2.val).1).isNone) = A := by
          rw [List.filter_eq_self]
          intro p hp
          rw [hA p hp]
          rfl
        rw [hAfm, hAfl]
        rw [List.filterMap_cons, List.filter_cons]
        rw [hv]
        simp [List.append_assoc]

/-- C4: fully consuming `take_all_num::<T>()` yields exactly the
numeric-keyed entries that convert, as (key, value) pairs in strictly
increasing key order, removing each yielded entry; every non-converting
numeric entry is left unchanged and no diagnostic is reported; over keys
{1,3,7} holding Bool false, a number, Bool true, `take_all_num::<bool>`
yields (1,false) then (7,true) and leaves the key-3 entry untouched. -/
theorem takeAllNum_spec {T : Type} (conv : ConvFun T) (t : TableValue)
    (hkeys : t.nums.Pairwise (fun p q => p.1 < q.1)) :
    takeAllNum conv t
      = (t.nums.filterMap
           (fun p => ((conv p.2.val).1).map (fun v => (p.1, v))),
         (⟨t.nums.filter (fun p => ((conv p.2.val).1).isNone),
           t.strs⟩ : TableValue), [])
    ∧ (t.nums.filterMap
         (fun p => ((conv p.2.val).1).map (fun v => (p.1, v)))).Pairwise
        (fun a b => a.1 < b.1)
    ∧ takeAllNum boolTryFromValue
        ⟨[(1, sampleEntry (Value.bool false)),
          (3, sampleEntry (Value.number 0)),
          (7, sampleEntry (Value.bool true))], []⟩
      = ([(1, false), (7, true)],
         ⟨[(3, sampleEntry (Value.number 0))], []⟩, []) := by
  refine ⟨?_, ?_, ?_⟩
  · have h := takeAllRun_spec conv (t.nums.length + 1) t.nums [] t
      (by simp) hkeys (by simp) (by omega)
    rw [takeAllNum]
    rw [show (0 : Nat) = ([] : List (Nat × SpannedEntry Value)).length
      from rfl]
    rw [h]
    simp
  · rw [List.pairwise_filterMap]
    refine hkeys.imp ?_
    intro p q hpq
    intro b hb b' hb'
    rcases hc : (conv p.2.val).1 with _ | w
    · rw [hc] at hb
      simp at hb
    · rw [hc] at hb
      simp at hb
      rcases hc' : (conv q.2.val).1 with _ | w'
      · rw [hc'] at hb'
        simp at hb'
      · rw [hc'] at hb'
        simp at hb'
        rw [← hb, ← hb']
        exact hpq
  · rfl

/-- Witness for C4: the concrete {1,3,7} table with the bool converter. -/
theorem takeAllNum_spec_witness :
    ([(1, sampleEntry (Value.bool false)),
      (3, sampleEntry (Value.number 0)),
      (7, sampleEntry (Value.bool true))] :
        List (Nat × SpannedEntry Value)).Pairwise (fun p q => p.1 < q.1)
    ∧ takeAllNum boolTryFromValue
        ⟨[(1, sampleEntry (Value.bool false)),
          (3, sampleEntry (Value.number 0)),
          (7, sampleEntry (Value.bool true))], []⟩
      = ([(1, false), (7, true)],
         ⟨[(3, sampleEntry (Value.number 0))], []⟩, []) := by
  have hp : ([(1, sampleEntry (Value.bool false)),
      (3, sampleEntry (Value.number 0)),
      (7, sampleEntry (Value.bool true))] :
        List (Nat × SpannedEntry Value)).Pairwise (fun p q => p.1 < q.1) := by
    norm_num [List.pairwise_cons]
  exact ⟨hp, (takeAllNum_spec boolTryFromValue
    ⟨[(1, sampleEntry (Value.bool false)),
      (3, sampleEntry (Value.number 0)),
      (7, sampleEntry (Value.bool true))], []⟩ hp).2.2⟩

end Typst
